import Mathlib

/-
  Verification development for the headline ranking and rule-based signal
  engine of digest.py (Daily Economic Headline Digest).

  The Python source is shallowly embedded: dictionaries become association
  lists in source order, Python str becomes Lean String (a list of unicode
  code points, matching Python semantics for the ASCII/Hangul alphabet used
  here), and the stable list.sort with reverse=True becomes a stable
  descending insertion sort.  The sha256 digest used for stable_id is
  modelled by the (collision-free) encoding of its preimage, as the spec
  treats the hash as collision-negligible.  Network fetching, datetime
  filtering, report rendering and delivery are outside the modelled core.
-/

namespace Digest

/-- Python whitespace classification: the characters matched by the regex
class backslash-s on str and stripped by str.strip (ASCII control
whitespace, the C1 separators, and the unicode space code points). -/
def pyWS (c : Char) : Bool :=
  c.toNat == 32 || (9 ≤ c.toNat && c.toNat ≤ 13) ||
  (28 ≤ c.toNat && c.toNat ≤ 31) || c.toNat == 133 || c.toNat == 160 ||
  c.toNat == 5760 || (8192 ≤ c.toNat && c.toNat ≤ 8202) ||
  c.toNat == 8232 || c.toNat == 8233 || c.toNat == 8239 ||
  c.toNat == 8287 || c.toNat == 12288

/-- Python str.lower per code point.  ASCII letters A-Z map to a-z, and
the only two code points whose lowercase introduces characters of the
classes the engine distinguishes (ASCII alphanumerics, Hangul,
whitespace) are included: U+212A KELVIN SIGN lowers to the ASCII letter
k, and U+0130 — the one one-to-many lower mapping in Unicode — lowers to
i followed by the combining dot U+0307.  Every remaining Unicode case
mapping relates non-ASCII code points to non-ASCII, non-Hangul,
non-whitespace code points and is left out of the model. -/
def lowerChar (c : Char) : List Char :=
  if 65 ≤ c.toNat ∧ c.toNat ≤ 90 then [Char.ofNat (c.toNat + 32)]
  else if c.toNat = 8490 then ['k']
  else if c.toNat = 304 then ['i', Char.ofNat 775]
  else [c]

/-- str.lower over a whole string. -/
def lowerStr (s : String) : String := ⟨s.data.flatMap lowerChar⟩

/-- needle is a prefix of hay (character lists). -/
def startsSub : List Char → List Char → Bool
  | [], _ => true
  | _ :: _, [] => false
  | a :: as, b :: bs => a == b && startsSub as bs

/-- needle occurs as a contiguous substring of hay (character lists);
models the Python expression needle in hay on str. -/
def hasSub : List Char → List Char → Bool
  | n, [] => n.isEmpty
  | n, c :: rest => startsSub n (c :: rest) || hasSub n rest

/-- Python substring containment test on strings. -/
def isSub (needle hay : String) : Bool := hasSub needle.data hay.data

/-- One pass of the regex substitution replacing every maximal whitespace
run by a single space; prevWS records whether the previous character
belonged to a whitespace run. -/
def collapseA (prevWS : Bool) : List Char → List Char
  | [] => []
  | c :: rest =>
    if pyWS c then
      (if prevWS then collapseA true rest else ' ' :: collapseA true rest)
    else c :: collapseA false rest

/-- re.sub of one-or-more whitespace to a single space. -/
def collapse (l : List Char) : List Char := collapseA false l

/-- Python str.strip: drop whitespace from both ends. -/
def pyStrip (l : List Char) : List Char :=
  ((l.dropWhile pyWS).reverse.dropWhile pyWS).reverse

/-- digest.py norm: strip the string, then collapse internal whitespace
runs to single spaces.  The Python parameter may be None; None is handled
by normOpt below. -/
def norm (s : String) : String := ⟨collapse (pyStrip s.data)⟩

/-- norm applied to an optional string, modelling the Python idiom
(s or "") for a possibly-None argument. -/
def normOpt (o : Option String) : String := norm (o.getD "")

/-- digest.py stable_id: sha256 over lowercased normalized title, a pipe,
and lowercased normalized link.  The digest is modelled by its preimage
(injective, matching the spec's collision-negligible reading). -/
def stable_id (title link : String) : String :=
  lowerStr (norm title) ++ "|" ++ lowerStr (norm link)

/-- Characters kept (not replaced by a space) by the fuzzy_key regex:
ASCII digits and letters, Hangul syllables, and whitespace. -/
def keepChar (c : Char) : Bool :=
  (48 ≤ c.toNat && c.toNat ≤ 57) || (65 ≤ c.toNat && c.toNat ≤ 90) ||
  (97 ≤ c.toNat && c.toNat ≤ 122) ||
  (44032 ≤ c.toNat && c.toNat ≤ 55203) || pyWS c

/-- digest.py fuzzy_key: lower the title, replace every character outside
digits/ASCII letters/Hangul/whitespace by a space, collapse whitespace,
strip, and keep the first 80 characters. -/
def fuzzy_key (title : String) : String :=
  ⟨(pyStrip (collapse ((lowerStr title).data.map
      (fun c => if keepChar c then c else ' ')))).take 80⟩

/-- The KEYWORDS dictionary of digest.py, in source (insertion) order,
as an association list keyword-to-weight. -/
def KEYWORDS : List (String × Nat) :=
  [("금리", 3), ("연준", 3), ("fed", 3), ("fomc", 3), ("hawkish", 3), ("dovish", 3),
   ("inflation", 3), ("물가", 3), ("cpi", 3), ("ppi", 2), ("core cpi", 3),
   ("고용", 3), ("jobs", 3), ("nfp", 3), ("pmi", 3), ("gdp", 2),
   ("침체", 3), ("recession", 3), ("soft landing", 2),
   ("환율", 3), ("달러", 3), ("dollar", 3), ("dxy", 3), ("yen", 2), ("yuan", 2),
   ("채권", 2), ("국채", 3), ("bond", 2), ("treasury", 3), ("yield", 3), ("10-year", 2), ("2-year", 2),
   ("나스닥", 2), ("nasdaq", 2), ("s&p", 2), ("sp500", 2), ("dow", 1),
   ("반도체", 3), ("semiconductor", 3), ("ai", 2), ("gpu", 2), ("nvidia", 2), ("tsmc", 2),
   ("지정학", 3), ("geopolitics", 3), ("전쟁", 3), ("war", 3),
   ("제재", 3), ("sanction", 3), ("유가", 3), ("oil", 3), ("wti", 2), ("brent", 2),
   ("원자재", 2), ("commodities", 2),
   ("중국", 2), ("china", 2), ("stimulus", 2), ("pbo c", 2), ("property", 2)]

/-- The THEMES dictionary of digest.py, in source order. -/
def THEMES : List (String × List String) :=
  [("금리/연준/물가", ["금리", "연준", "fed", "fomc", "hawkish", "dovish", "inflation", "cpi", "ppi", "물가"]),
   ("환율/달러/국채", ["환율", "달러", "dollar", "dxy", "채권", "국채", "treasury", "yield", "bond", "10-year", "2-year", "yen", "yuan"]),
   ("미국지표/경기", ["고용", "jobs", "nfp", "pmi", "gdp", "침체", "recession", "soft landing"]),
   ("기술/반도체/AI", ["나스닥", "nasdaq", "s&p", "sp500", "반도체", "semiconductor", "ai", "gpu", "nvidia", "tsmc"]),
   ("중국/정책", ["중국", "china", "stimulus", "pbo c", "property", "yuan"]),
   ("지정학/원자재", ["지정학", "geopolitics", "전쟁", "war", "제재", "sanction", "유가", "oil", "wti", "brent", "원자재", "commodities"])]

/-- The lowercased concatenation of title, a space, and summary: the text
both score_text and analyze_signal work on. -/
def textOf (title summary : String) : String := lowerStr (title ++ " " ++ summary)

/-- digest.py score_text: add the weight of every keyword whose lowercase
form occurs in the text; each keyword contributes at most once because the
loop tests containment once per dictionary entry. -/
def score_text (title summary : String) : Nat :=
  KEYWORDS.foldl
    (fun acc kw => if isSub (lowerStr kw.1) (textOf title summary) then acc + kw.2 else acc) 0

/-- digest.py classify_themes: every theme one of whose keywords occurs in
the text, in declaration order; the default theme when none matches. -/
def classify_themes (title summary : String) : List String :=
  let matched := (THEMES.filter
    (fun th => th.2.any (fun k => isSub (lowerStr k) (textOf title summary)))).map (fun th => th.1)
  if matched = [] then ["기타"] else matched

/-- RISK_OFF_TERMS of digest.py. -/
def RISK_OFF_TERMS : List String :=
  ["hawkish", "rate hike", "hike", "hot inflation", "inflation accelerat", "cpi beat", "ppi beat",
   "yield surge", "yields surge", "bond selloff", "risk-off", "sell-off",
   "geopolitics", "war", "attack", "sanction", "tension",
   "oil spike", "oil jumps", "wti jumps", "brent jumps"]

/-- RISK_ON_TERMS of digest.py. -/
def RISK_ON_TERMS : List String :=
  ["dovish", "rate cut", "cut", "inflation cooling", "cpi miss", "yields fall", "bond rally",
   "soft landing", "stimulus", "easing", "risk-on"]

/-- STRONG_TERMS of digest.py. -/
def STRONG_TERMS : List String :=
  ["surge", "spike", "soar", "plunge", "emergency", "attack", "sanction", "shock", "unexpected", "record"]

/-- MEDIUM_TERMS of digest.py. -/
def MEDIUM_TERMS : List String :=
  ["jump", "rise", "fall", "drop", "warn", "concern", "weighs", "boost", "pressure"]

/-- DIRECTION_UP_TERMS of digest.py. -/
def DIRECTION_UP_TERMS : List String :=
  ["cut", "dovish", "cooling", "yields fall", "bond rally", "stimulus", "easing", "beats expectations", "record profit"]

/-- DIRECTION_DOWN_TERMS of digest.py. -/
def DIRECTION_DOWN_TERMS : List String :=
  ["hike", "hawkish", "hot inflation", "yields surge", "bond selloff", "sanction", "attack", "tension", "oil spike"]

/-- Python any(t in text for t in terms). -/
def anyTerm (terms : List String) (text : String) : Bool :=
  terms.any (fun t => isSub t text)

/-- The strength_score accumulation inside analyze_signal, factored out:
capped keyword score, then the strong/medium bonus (the strong branch
suppresses the medium one), then the high-impact theme bonus. -/
def strengthScore (text : String) (themes : List String) (score : Nat) : Nat :=
  let s1 := min 6 score
  let s2 := if anyTerm STRONG_TERMS text then s1 + 4
            else if anyTerm MEDIUM_TERMS text then s1 + 2 else s1
  if (["금리/연준/물가", "환율/달러/국채", "지정학/원자재"] : List String).any
      (fun t => themes.contains t)
  then s2 + 2 else s2

/-- The dictionary returned by analyze_signal. -/
structure Signal where
  risk_mode : String
  direction : String
  strength : String
  stars : String
  trade_action : String
  one_liner : String
  hits : List String
deriving DecidableEq

/-- digest.py analyze_signal: the rule-based trading signal derived from
title, summary, themes and keyword score. -/
def analyze_signal (title summary : String) (themes : List String) (score : Nat) : Signal :=
  let text := textOf title summary
  let risk_off := anyTerm RISK_OFF_TERMS text
  let risk_on := anyTerm RISK_ON_TERMS text
  let risk_mode :=
    if risk_off && !risk_on then "Risk-off"
    else if risk_on && !risk_off then "Risk-on"
    else if anyTerm ["hawkish", "yield", "war", "attack", "sanction", "oil", "inflation"] text
    then "Risk-off" else "Mixed"
  let down := anyTerm DIRECTION_DOWN_TERMS text
  let up := anyTerm DIRECTION_UP_TERMS text
  let direction := if up && !down then "↑" else if down && !up then "↓" else "→"
  let ss := strengthScore text themes score
  let strength := if ss ≥ 10 then "상" else if ss ≥ 6 then "중" else "하"
  let stars := if ss ≥ 10 then "⭐⭐⭐" else if ss ≥ 6 then "⭐⭐" else "⭐"
  let trade_action :=
    if strength == "상" && (direction == "↑" || direction == "↓") then "시초가 관찰 후 5~15분 눌림목/반등 시도"
    else if strength == "중" then "초반 변동성 확인 후 분할/관망"
    else "관심등록(관망)"
  let theme_tag := match themes with | [] => "기타" | t :: _ => t
  let one_liner := theme_tag ++ " 이슈 → " ++ risk_mode ++ ", 방향 " ++ direction ++ ", 강도 " ++ strength
  let hits := ((KEYWORDS.filter (fun kw => isSub (lowerStr kw.1) text)).map (fun kw => kw.1)).take 6
  ⟨risk_mode, direction, strength, stars, trade_action, one_liner, hits⟩

/-- An item dictionary as it flows through digest.py.  Fields that a raw
item may lack (id, score, themes) are optional, matching dict.get with a
default; the collector timestamp, unused by dedup/scoring/ranking, is an
opaque optional number. -/
structure Item where
  id : Option String
  title : String
  link : String
  summary : String
  source : String
  dt : Option Nat
  score : Option Nat
  themes : Option (List String)
deriving DecidableEq

/-- The id used by dedupe_score: the stored id when present and truthy
(non-empty), else stable_id of title and link. -/
def sidOf (it : Item) : String :=
  match it.id with
  | none => stable_id it.title it.link
  | some s => if s = "" then stable_id it.title it.link else s

/-- The mutation dedupe_score applies to an accepted item: store its id,
keyword score and themes. -/
def updateI (it : Item) : Item :=
  { it with id := some (sidOf it),
            score := some (score_text it.title it.summary),
            themes := some (classify_themes it.title it.summary) }

/-- The dedup gate loop of dedupe_score: first-seen-wins on both the
strong id and the fuzzy key; only accepted items record their keys. -/
def dedupePass : List String → List String → List Item → List Item
  | _, _, [] => []
  | seenId, seenFz, it :: rest =>
    if sidOf it ∈ seenId then dedupePass seenId seenFz rest
    else if fuzzy_key it.title ∈ seenFz then dedupePass seenId seenFz rest
    else updateI it :: dedupePass (sidOf it :: seenId) (fuzzy_key it.title :: seenFz) rest

/-- Stable descending insertion: a goes before the first element whose key
is less than or equal to a's key.  Models the placement of Python's stable
list.sort with reverse=True. -/
def insertD {α κ : Type} (key : α → κ) (le : κ → κ → Bool) (a : α) : List α → List α
  | [] => [a]
  | b :: l => if le (key b) (key a) then a :: b :: l else b :: insertD key le a l

/-- Stable descending sort by a key, modelling list.sort(key=..., reverse=True). -/
def sortD {α κ : Type} (key : α → κ) (le : κ → κ → Bool) : List α → List α
  | [] => []
  | a :: l => insertD key le a (sortD key le l)

/-- Lexicographic comparison of character lists by code point, as Python
compares str values. -/
def listLe : List Char → List Char → Bool
  | [], _ => true
  | _ :: _, [] => false
  | a :: as, b :: bs =>
    if a.toNat < b.toNat then true
    else if b.toNat < a.toNat then false
    else listLe as bs

/-- Python string less-or-equal. -/
def strLe (s t : String) : Bool := listLe s.data t.data

/-- Python tuple comparison on (int, str) pairs. -/
def leNatStr (x y : Nat × String) : Bool :=
  if x.1 < y.1 then true else if y.1 < x.1 then false else strLe x.2 y.2

/-- Python tuple comparison on (int, int) pairs. -/
def leNatNat (x y : Nat × Nat) : Bool :=
  if x.1 < y.1 then true else if y.1 < x.1 then false else x.2 ≤ y.2

/-- The sort key of dedupe_score: (score or 0, title). -/
def keyST (it : Item) : Nat × String := (it.score.getD 0, it.title)

/-- digest.py dedupe_score: the dedup gate, scoring and theme tagging,
then a stable descending sort by (score, title) and truncation to top_n. -/
def dedupe_score (items : List Item) (top_n : Nat) : List Item :=
  (sortD keyST leNatStr (dedupePass [] [] items)).take top_n

/-- An item enriched with its signal, as built inside build_report. -/
structure Enriched where
  base : Item
  signal : Signal
deriving DecidableEq

/-- The strength_rank lookup of build_report, defaulting to 1. -/
def strength_rank (s : String) : Nat :=
  if s = "상" then 3 else if s = "중" then 2 else 1

/-- The enrichment loop of build_report: attach analyze_signal of each
item's title, summary, themes (default the catch-all theme) and score. -/
def enrich (items : List Item) : List Enriched :=
  items.map (fun it =>
    ⟨it, analyze_signal it.title it.summary (it.themes.getD ["기타"]) (it.score.getD 0)⟩)

/-- The ranking sort key of build_report: (strength rank, score or 0). -/
def keyTS (e : Enriched) : Nat × Nat :=
  (strength_rank e.signal.strength, e.base.score.getD 0)

/-- The ranking step of build_report (lines 483-498): enrich every item
with its signal and stably sort descending by (strength rank, score). -/
def rank_signals (items : List Item) : List Enriched :=
  sortD keyTS leNatNat (enrich items)

/-- The ranked output of the engine: dedupe_score feeding build_report's
signal enrichment and sort, with the overall cap as dedupe_score's top_n. -/
def pipeline (items : List Item) (overall_cap : Nat) : List Enriched :=
  rank_signals (dedupe_score items overall_cap)

/-- Following the words of claim C1 (the spec's ranking sentence): the
surviving deduplicated items, enriched, sorted descending by
(strength tier rank, score), and truncated to overall_cap after that
sort.  Spec-side definition, to be compared with pipeline. -/
def specRankedC1 (items : List Item) (overall_cap : Nat) : List Enriched :=
  (sortD keyTS leNatNat (enrich (dedupePass [] [] items))).take overall_cap

/-- The amended ranking statement: survivors are first sorted descending
by (score, title) and truncated to overall_cap, and only then enriched
and stably re-sorted descending by (strength tier rank, score). -/
def amendedRankedC1 (items : List Item) (overall_cap : Nat) : List Enriched :=
  sortD keyTS leNatNat
    (enrich ((sortD keyST leNatStr (dedupePass [] [] items)).take overall_cap))

/-- The fixed high-impact theme subset named by the spec: rates/inflation,
FX/bonds, geopolitics/commodities. -/
def HIGH_IMPACT_THEMES : List String :=
  ["금리/연준/물가", "환율/달러/국채", "지정학/원자재"]

/-- Following the words of claim C5 (the spec's risk-mode sentence):
RiskOff when an off-term matches and no on-term does, RiskOn when only an
on-term matches, else the macro-risk fallback.  Spec-side definition, to
be compared with the risk_mode computed by analyze_signal. -/
def riskModeSpec (title summary : String) : String :=
  if (∃ t ∈ RISK_OFF_TERMS, isSub t (textOf title summary) = true) ∧
      ¬ (∃ t ∈ RISK_ON_TERMS, isSub t (textOf title summary) = true) then "Risk-off"
  else if (∃ t ∈ RISK_ON_TERMS, isSub t (textOf title summary) = true) ∧
      ¬ (∃ t ∈ RISK_OFF_TERMS, isSub t (textOf title summary) = true) then "Risk-on"
  else if ∃ w ∈ (["hawkish", "yield", "war", "attack", "sanction", "oil", "inflation"] : List String),
      isSub w (textOf title summary) = true then "Risk-off"
  else "Mixed"

/-- No character of the string is an ASCII digit, an ASCII letter, or a
Hangul syllable. -/
def noAlnumHangul (t : String) : Bool :=
  t.data.all (fun c =>
    !((48 ≤ c.toNat && c.toNat ≤ 57) || (65 ≤ c.toNat && c.toNat ≤ 90) ||
      (97 ≤ c.toNat && c.toNat ≤ 122) || (44032 ≤ c.toNat && c.toNat ≤ 55203)))

/-- Concrete raw item whose title scores 6 and carries a strong term, so
its signal tier is High while its keyword score is the lower of the two. -/
def c1itemA : Item := ⟨none, "금리 연준 surge", "a", "", "s", none, none, none⟩

/-- Concrete raw item whose title scores 9 with no strong or medium term,
so its signal tier is only Medium while its keyword score is the higher. -/
def c1itemB : Item := ⟨none, "금리 연준 fed", "b", "", "s", none, none, none⟩

/-- Concrete raw item for the tie-order experiment: score 3, Low tier. -/
def tieItemA : Item := ⟨none, "fed a", "la", "", "s", none, none, none⟩

/-- Second tie item: same score 3 and Low tier, title later in
lexicographic order, arriving after the first. -/
def tieItemB : Item := ⟨none, "fed b", "lb", "", "s", none, none, none⟩

/-- A punctuation-only-titled raw item. -/
def c9itemA : Item := ⟨none, "!?!", "la", "", "s", none, none, none⟩

/-- A second punctuation-only-titled raw item with different title, link
and content. -/
def c9itemB : Item := ⟨none, "???", "lb", "x", "t", none, none, none⟩

/-- A raw item titled with the single KELVIN SIGN code point U+212A: no
ASCII alphanumeric and no Hangul character, yet Python str.lower turns
it into the ASCII letter k before the fuzzy-key regex strips. -/
def c9kelvin : Item := ⟨none, "\u212A", "lk", "", "s", none, none, none⟩

/-! Generic facts about the stable descending insertion sort. -/

section SortLemmas

variable {α κ : Type} (key : α → κ) (le : κ → κ → Bool)

theorem insertD_perm (a : α) (l : List α) : List.Perm (insertD key le a l) (a :: l) := by
  induction l with
  | nil => exact List.Perm.refl _
  | cons b l ih =>
    simp only [insertD]
    split
    · exact List.Perm.refl _
    · exact (ih.cons b).trans (List.Perm.swap a b l)

theorem sortD_perm (l : List α) : List.Perm (sortD key le l) l := by
  induction l with
  | nil => exact List.Perm.refl _
  | cons a l ih => exact (insertD_perm key le a (sortD key le l)).trans (ih.cons a)

theorem insertD_sorted
    (hTot : ∀ x y, le x y = true ∨ le y x = true)
    (hTrans : ∀ x y z, le x y = true → le y z = true → le x z = true)
    (a : α) (l : List α)
    (h : l.Pairwise (fun x y => le (key y) (key x) = true)) :
    (insertD key le a l).Pairwise (fun x y => le (key y) (key x) = true) := by
  induction l with
  | nil => simp [insertD]
  | cons b l ih =>
    rcases List.pairwise_cons.mp h with ⟨hb, hl⟩
    simp only [insertD]
    by_cases hba : le (key b) (key a) = true
    · rw [if_pos hba]
      refine List.pairwise_cons.mpr ⟨?_, h⟩
      intro z hz
      rcases List.mem_cons.mp hz with rfl | hz2
      · exact hba
      · exact hTrans _ _ _ (hb z hz2) hba
    · rw [if_neg hba]
      refine List.pairwise_cons.mpr ⟨?_, ih hl⟩
      intro z hz
      have hz2 := (insertD_perm key le a l).mem_iff.mp hz
      rcases List.mem_cons.mp hz2 with rfl | hz3
      · rcases hTot (key b) (key z) with h1 | h1
        · exact absurd h1 hba
        · exact h1
      · exact hb z hz3

theorem sortD_sorted
    (hTot : ∀ x y, le x y = true ∨ le y x = true)
    (hTrans : ∀ x y z, le x y = true → le y z = true → le x z = true)
    (l : List α) :
    (sortD key le l).Pairwise (fun x y => le (key y) (key x) = true) := by
  induction l with
  | nil => simp [sortD]
  | cons a l ih => exact insertD_sorted key le hTot hTrans a _ ih

theorem insertD_pairwise (P : α → α → Prop)
    (hTrans : ∀ x y z, le x y = true → le y z = true → le x z = true)
    (a : α) (m : List α)
    (hsort : m.Pairwise (fun x y => le (key y) (key x) = true))
    (hP : m.Pairwise P)
    (hafter : ∀ c ∈ m, le (key c) (key a) = true → P a c)
    (hbefore : ∀ b ∈ m, ¬ le (key b) (key a) = true → P b a) :
    (insertD key le a m).Pairwise P := by
  induction m with
  | nil => simp [insertD]
  | cons b m ih =>
    rcases List.pairwise_cons.mp hsort with ⟨hsb, hsm⟩
    rcases List.pairwise_cons.mp hP with ⟨hPb, hPm⟩
    simp only [insertD]
    by_cases hba : le (key b) (key a) = true
    · rw [if_pos hba]
      refine List.pairwise_cons.mpr ⟨?_, hP⟩
      intro z hz
      rcases List.mem_cons.mp hz with rfl | hz2
      · exact hafter z (List.mem_cons_self _ _) hba
      · exact hafter z (List.mem_cons_of_mem _ hz2) (hTrans _ _ _ (hsb z hz2) hba)
    · rw [if_neg hba]
      refine List.pairwise_cons.mpr ⟨?_, ?_⟩
      · intro z hz
        have hz2 := (insertD_perm key le a m).mem_iff.mp hz
        rcases List.mem_cons.mp hz2 with rfl | hz3
        · exact hbefore b (List.mem_cons_self _ _) hba
        · exact hPb z hz3
      · exact ih hsm hPm
          (fun c hc h2 => hafter c (List.mem_cons_of_mem _ hc) h2)
          (fun c hc h2 => hbefore c (List.mem_cons_of_mem _ hc) h2)

theorem sortD_stable (Q : α → α → Prop)
    (hTot : ∀ x y, le x y = true ∨ le y x = true)
    (hTrans : ∀ x y z, le x y = true → le y z = true → le x z = true)
    (l : List α) (hQ : l.Pairwise Q) :
    (sortD key le l).Pairwise (fun x y => key x = key y → Q x y) := by
  induction l with
  | nil => simp [sortD]
  | cons a l ih =>
    rcases List.pairwise_cons.mp hQ with ⟨ha, hl⟩
    refine insertD_pairwise key le _ hTrans a _ (sortD_sorted key le hTot hTrans l) (ih hl) ?_ ?_
    · intro c hc _ _
      exact ha c ((sortD_perm key le l).mem_iff.mp hc)
    · intro b _ hble hkey
      have : le (key b) (key a) = true := by
        rw [hkey]
        rcases hTot (key a) (key a) with h1 | h1 <;> exact h1
      exact absurd this hble

theorem sortD_of_sorted (l : List α)
    (h : l.Pairwise (fun x y => le (key y) (key x) = true)) :
    sortD key le l = l := by
  induction l with
  | nil => rfl
  | cons a l ih =>
    rcases List.pairwise_cons.mp h with ⟨ha, hl⟩
    simp only [sortD, ih hl]
    cases l with
    | nil => rfl
    | cons b m => simp only [insertD, if_pos (ha b (List.mem_cons_self _ _))]

end SortLemmas

/-! The two key orders are total preorders. -/

theorem listLe_total : ∀ x y : List Char, listLe x y = true ∨ listLe y x = true := by
  intro x
  induction x with
  | nil => intro y; left; rfl
  | cons a as ih =>
    intro y
    cases y with
    | nil => right; rfl
    | cons b bs =>
      simp only [listLe]
      by_cases h1 : a.toNat < b.toNat
      · left; rw [if_pos h1]
      · by_cases h2 : b.toNat < a.toNat
        · right; rw [if_pos h2]
        · rw [if_neg h1, if_neg h2, if_neg h2, if_neg h1]
          exact ih bs

theorem listLe_trans : ∀ x y z : List Char,
    listLe x y = true → listLe y z = true → listLe x z = true := by
  intro x
  induction x with
  | nil => intro y z _ _; rfl
  | cons a as ih =>
    intro y z h1 h2
    cases y with
    | nil => simp [listLe] at h1
    | cons b bs =>
      cases z with
      | nil => simp [listLe] at h2
      | cons c cs =>
        simp only [listLe] at h1 h2 ⊢
        by_cases hab : a.toNat < b.toNat
        · by_cases hbc : b.toNat < c.toNat
          · rw [if_pos (Nat.lt_trans hab hbc)]
          · rw [if_neg hbc] at h2
            by_cases hcb : c.toNat < b.toNat
            · rw [if_pos hcb] at h2; exact Bool.noConfusion h2
            · have hac : a.toNat < c.toNat := by omega
              rw [if_pos hac]
        · rw [if_neg hab] at h1
          by_cases hba : b.toNat < a.toNat
          · rw [if_pos hba] at h1; exact Bool.noConfusion h1
          · rw [if_neg hba] at h1
            by_cases hbc : b.toNat < c.toNat
            · have hac : a.toNat < c.toNat := by omega
              rw [if_pos hac]
            · rw [if_neg hbc] at h2
              by_cases hcb : c.toNat < b.toNat
              · rw [if_pos hcb] at h2; exact Bool.noConfusion h2
              · rw [if_neg hcb] at h2
                have h3 : ¬ a.toNat < c.toNat := by omega
                have h4 : ¬ c.toNat < a.toNat := by omega
                rw [if_neg h3, if_neg h4]
                exact ih bs cs h1 h2

theorem leNatStr_total : ∀ x y : Nat × String, leNatStr x y = true ∨ leNatStr y x = true := by
  intro x y
  simp only [leNatStr]
  by_cases h1 : x.1 < y.1
  · left; rw [if_pos h1]
  · by_cases h2 : y.1 < x.1
    · right; rw [if_pos h2]
    · rw [if_neg h1, if_neg h2, if_neg h2, if_neg h1]
      exact listLe_total x.2.data y.2.data

theorem leNatStr_trans : ∀ x y z : Nat × String,
    leNatStr x y = true → leNatStr y z = true → leNatStr x z = true := by
  intro x y z h1 h2
  simp only [leNatStr, strLe] at h1 h2 ⊢
  split_ifs at h1 h2 ⊢ <;>
    first
      | rfl
      | (exact Bool.noConfusion h1)
      | (exact Bool.noConfusion h2)
      | omega
      | (exact listLe_trans _ _ _ h1 h2)

theorem leNatNat_total : ∀ x y : Nat × Nat, leNatNat x y = true ∨ leNatNat y x = true := by
  intro x y
  simp only [leNatNat]
  by_cases h1 : x.1 < y.1
  · left; rw [if_pos h1]
  · by_cases h2 : y.1 < x.1
    · right; rw [if_pos h2]
    · rw [if_neg h1, if_neg h2, if_neg h2, if_neg h1]
      simp only [decide_eq_true_eq]
      omega

theorem leNatNat_trans : ∀ x y z : Nat × Nat,
    leNatNat x y = true → leNatNat y z = true → leNatNat x z = true := by
  intro x y z h1 h2
  simp only [leNatNat] at h1 h2 ⊢
  split_ifs at h1 h2 ⊢ <;>
    first
      | rfl
      | (exact Bool.noConfusion h1)
      | (exact Bool.noConfusion h2)
      | omega
      | (simp only [decide_eq_true_eq] at h1 h2 ⊢; omega)

/-- On pairs with equal first components, the (score, title) order is the
title order. -/
theorem leNatStr_same_fst {n m : Nat} {s t : String}
    (h : leNatStr (n, s) (m, t) = true) (he : n = m) : strLe s t = true := by
  subst he
  simpa only [leNatStr, Nat.lt_irrefl, if_neg, if_false] using h

/-! Facts about the dedup gate. -/

theorem data_append (s t : String) : (s ++ t).data = s.data ++ t.data := by
  cases s; cases t; rfl

theorem stable_id_ne_empty (t l : String) : stable_id t l ≠ "" := by
  intro h
  have h2 : (stable_id t l).data = ("" : String).data := by rw [h]
  simp only [stable_id, data_append] at h2
  exact absurd h2 (by simp [String.data])

theorem sidOf_ne_empty (it : Item) : sidOf it ≠ "" := by
  cases hid : it.id with
  | none => simp only [sidOf, hid]; exact stable_id_ne_empty _ _
  | some s =>
    simp only [sidOf, hid]
    by_cases h : s = ""
    · rw [if_pos h]; exact stable_id_ne_empty _ _
    · rw [if_neg h]; exact h

theorem updateI_title (it : Item) : (updateI it).title = it.title := rfl

theorem sidOf_updateI (it : Item) : sidOf (updateI it) = sidOf it := by
  show (if sidOf it = "" then stable_id it.title it.link else sidOf it) = sidOf it
  rw [if_neg (sidOf_ne_empty it)]

/-- The dedup gate produces items with pairwise distinct strong ids and
pairwise distinct fuzzy keys, and never an item whose keys were already
recorded in the seen sets. -/
theorem dedupePass_pairwise :
    ∀ (items : List Item) (sI sF : List String),
      (dedupePass sI sF items).Pairwise
        (fun a b => sidOf a ≠ sidOf b ∧ fuzzy_key a.title ≠ fuzzy_key b.title) ∧
      (∀ x ∈ dedupePass sI sF items, sidOf x ∉ sI ∧ fuzzy_key x.title ∉ sF) := by
  intro items
  induction items with
  | nil => intro sI sF; exact ⟨List.Pairwise.nil, by simp [dedupePass]⟩
  | cons it rest ih =>
    intro sI sF
    simp only [dedupePass]
    by_cases h1 : sidOf it ∈ sI
    · rw [if_pos h1]; exact ih sI sF
    · rw [if_neg h1]
      by_cases h2 : fuzzy_key it.title ∈ sF
      · rw [if_pos h2]; exact ih sI sF
      · rw [if_neg h2]
        rcases ih (sidOf it :: sI) (fuzzy_key it.title :: sF) with ⟨hpw, hmem⟩
        constructor
        · refine List.pairwise_cons.mpr ⟨?_, hpw⟩
          intro b hb
          rcases hmem b hb with ⟨hbs, hbf⟩
          constructor
          · rw [sidOf_updateI]
            intro he
            exact hbs (by rw [← he]; exact List.mem_cons_self _ _)
          · rw [updateI_title]
            intro he
            exact hbf (by rw [← he]; exact List.mem_cons_self _ _)
        · intro x hx
          rcases List.mem_cons.mp hx with rfl | hx2
          · rw [sidOf_updateI, updateI_title]
            exact ⟨h1, h2⟩
          · rcases hmem x hx2 with ⟨hxs, hxf⟩
            exact ⟨fun h => hxs (List.mem_cons_of_mem _ h),
                   fun h => hxf (List.mem_cons_of_mem _ h)⟩

/-- The key-distinctness relation is symmetric, so it survives the
permutation performed by the sort. -/
theorem keysNe_symm :
    Symmetric (fun a b : Item => sidOf a ≠ sidOf b ∧ fuzzy_key a.title ≠ fuzzy_key b.title) :=
  fun _ _ h => ⟨fun e => h.1 e.symm, fun e => h.2 e.symm⟩

/-- The ranked dedupe_score output still has pairwise distinct strong ids
and pairwise distinct fuzzy keys. -/
theorem dedupe_score_pairwise_keys (items : List Item) (n : Nat) :
    (dedupe_score items n).Pairwise
      (fun a b => sidOf a ≠ sidOf b ∧ fuzzy_key a.title ≠ fuzzy_key b.title) := by
  have h0 := (dedupePass_pairwise items [] []).1
  have h1 : (sortD keyST leNatStr (dedupePass [] [] items)).Pairwise
      (fun a b => sidOf a ≠ sidOf b ∧ fuzzy_key a.title ≠ fuzzy_key b.title) :=
    ((sortD_perm keyST leNatStr (dedupePass [] [] items)).pairwise_iff
      (fun h => keysNe_symm h)).mpr h0
  exact h1.sublist (List.take_sublist n _)

/-- Distinct fuzzy keys force distinct titles. -/
theorem title_ne_of_fuzzy_ne {a b : Item}
    (h : fuzzy_key a.title ≠ fuzzy_key b.title) : a.title ≠ b.title :=
  fun e => h (by rw [e])

/-! Shape lemmas for strip and collapse, leading to idempotence of norm. -/

theorem dropWhile_shape (l : List Char) :
    l.dropWhile pyWS = [] ∨
    ∃ c t, l.dropWhile pyWS = c :: t ∧ pyWS c = false := by
  induction l with
  | nil => left; rfl
  | cons a l ih =>
    by_cases h : pyWS a = true
    · rw [List.dropWhile_cons_of_pos h]; exact ih
    · rw [List.dropWhile_cons_of_neg h]
      right
      exact ⟨a, l, rfl, by revert h; cases pyWS a <;> simp⟩

theorem dropWhile_append_last (X : List Char) (c : Char) (hc : pyWS c = false) :
    ∃ Y, (X ++ [c]).dropWhile pyWS = Y ++ [c] := by
  induction X with
  | nil =>
    refine ⟨[], ?_⟩
    simp only [List.nil_append]
    rw [List.dropWhile_cons_of_neg (by rw [hc]; exact Bool.noConfusion)]
  | cons a X ih =>
    by_cases h : pyWS a = true
    · rw [List.cons_append, List.dropWhile_cons_of_pos h]; exact ih
    · rw [List.cons_append, List.dropWhile_cons_of_neg h]
      exact ⟨a :: X, rfl⟩

theorem pyStrip_shape (l : List Char) :
    pyStrip l = [] ∨
    ((∃ c t, pyStrip l = c :: t ∧ pyWS c = false) ∧
     (∃ m d, pyStrip l = m ++ [d] ∧ pyWS d = false)) := by
  rcases dropWhile_shape l with h | ⟨c, t, h, hc⟩
  · left; simp [pyStrip, h]
  · right
    constructor
    · rcases dropWhile_append_last t.reverse c hc with ⟨Y, hY⟩
      refine ⟨c, Y.reverse, ?_, hc⟩
      simp only [pyStrip, h, List.reverse_cons, hY, List.reverse_append,
        List.reverse_cons, List.reverse_nil, List.nil_append, List.reverse_reverse]
      rfl
    · rcases dropWhile_shape (c :: t).reverse with h2 | ⟨d, t2, h2, hd⟩
      · rcases dropWhile_append_last t.reverse c hc with ⟨Y, hY⟩
        rw [List.reverse_cons] at h2
        rw [h2] at hY
        exact absurd hY.symm (by simp)
      · refine ⟨t2.reverse, d, ?_, hd⟩
        rw [List.reverse_cons] at h2
        simp [pyStrip, h, h2]

theorem collapseA_cons_ws_true (c : Char) (rest : List Char) (h : pyWS c = true) :
    collapseA true (c :: rest) = collapseA true rest := by
  simp [collapseA, h]

theorem collapseA_cons_ws_false (c : Char) (rest : List Char) (h : pyWS c = true) :
    collapseA false (c :: rest) = ' ' :: collapseA true rest := by
  simp [collapseA, h]

theorem collapseA_cons_nws (b : Bool) (c : Char) (rest : List Char) (h : pyWS c = false) :
    collapseA b (c :: rest) = c :: collapseA false rest := by
  simp [collapseA, h]

theorem collapseA_idem (l : List Char) : ∀ b, collapseA b (collapseA b l) = collapseA b l := by
  induction l with
  | nil => intro b; rfl
  | cons c rest ih =>
    intro b
    by_cases h : pyWS c = true
    · cases b with
      | true => rw [collapseA_cons_ws_true c rest h]; exact ih true
      | false =>
        rw [collapseA_cons_ws_false c rest h,
          collapseA_cons_ws_false ' ' _ (by decide)]
        exact congrArg (fun x => ' ' :: x) (ih true)
    · have h2 : pyWS c = false := by simpa using h
      rw [collapseA_cons_nws b c rest h2, collapseA_cons_nws b c _ h2]
      exact congrArg (fun x => c :: x) (ih false)

theorem collapse_head_nonws (c : Char) (t : List Char) (hc : pyWS c = false) :
    collapse (c :: t) = c :: collapseA false t :=
  collapseA_cons_nws false c t hc

theorem collapseA_last (m : List Char) (c : Char) (hc : pyWS c = false) :
    ∀ b, ∃ m2, collapseA b (m ++ [c]) = m2 ++ [c] := by
  induction m with
  | nil =>
    intro b
    refine ⟨[], ?_⟩
    rw [List.nil_append, collapseA_cons_nws b c [] hc]
    rfl
  | cons a m ih =>
    intro b
    rw [List.cons_append]
    by_cases h : pyWS a = true
    · cases b with
      | true => rw [collapseA_cons_ws_true a _ h]; exact ih true
      | false =>
        rw [collapseA_cons_ws_false a _ h]
        rcases ih true with ⟨m2, hm2⟩
        exact ⟨' ' :: m2, by rw [hm2]; rfl⟩
    · have h2 : pyWS a = false := by simpa using h
      rw [collapseA_cons_nws b a _ h2]
      rcases ih false with ⟨m2, hm2⟩
      exact ⟨a :: m2, by rw [hm2]; rfl⟩

theorem pyStrip_noop (l : List Char)
    (hhead : ∃ c t, l = c :: t ∧ pyWS c = false)
    (hlast : ∃ m d, l = m ++ [d] ∧ pyWS d = false) :
    pyStrip l = l := by
  rcases hhead with ⟨c, t, rfl, hc⟩
  rcases hlast with ⟨m, d, he, hd⟩
  have h1 : (c :: t).dropWhile pyWS = c :: t :=
    List.dropWhile_cons_of_neg (by rw [hc]; exact Bool.noConfusion)
  rw [pyStrip, h1, he, List.reverse_append,
    show ([d] : List Char).reverse = [d] from rfl, List.singleton_append,
    List.dropWhile_cons_of_neg (by rw [hd]; exact Bool.noConfusion)]
  simp

/-- Applied to a stripped-then-collapsed list, strip does nothing and
collapse does nothing, so norm is idempotent at the list level. -/
theorem normList_idem (l : List Char) :
    collapse (pyStrip (collapse (pyStrip l))) = collapse (pyStrip l) := by
  rcases pyStrip_shape l with h | ⟨⟨c, t, hct, hc⟩, ⟨m, d, hmd, hd⟩⟩
  · rw [h]
    rfl
  · have hhead : collapse (pyStrip l) = c :: collapseA false t := by
      rw [hct]; exact collapse_head_nonws c t hc
    have hlast : ∃ m2, collapse (pyStrip l) = m2 ++ [d] := by
      rw [hmd]; exact collapseA_last m d hd false
    rcases hlast with ⟨m2, hm2⟩
    rw [pyStrip_noop (collapse (pyStrip l)) ⟨c, collapseA false t, hhead, hc⟩ ⟨m2, d, hm2, hd⟩]
    exact collapseA_idem (pyStrip l) false

/-- norm is idempotent on strings. -/
theorem norm_idem (s : String) : norm (norm s) = norm s := by
  show (⟨collapse (pyStrip (collapse (pyStrip s.data)))⟩ : String) = ⟨collapse (pyStrip s.data)⟩
  rw [normList_idem]

/-! Fuzzy keys of titles with no alphanumeric or Hangul characters. -/

theorem collapseA_true_allWS (l : List Char) (h : ∀ c ∈ l, pyWS c = true) :
    collapseA true l = [] := by
  induction l with
  | nil => rfl
  | cons c rest ih =>
    rw [collapseA_cons_ws_true c rest (h c (List.mem_cons_self _ _))]
    exact ih (fun x hx => h x (List.mem_cons_of_mem _ hx))

theorem pyStrip_collapse_allWS (l : List Char) (h : ∀ c ∈ l, pyWS c = true) :
    pyStrip (collapse l) = [] := by
  cases l with
  | nil => rfl
  | cons c rest =>
    have h2 : collapse (c :: rest) = [' '] := by
      show collapseA false (c :: rest) = [' ']
      rw [collapseA_cons_ws_false c rest (h c (List.mem_cons_self _ _)),
        collapseA_true_allWS rest (fun x hx => h x (List.mem_cons_of_mem _ hx))]
    rw [h2]
    decide

/-- A title whose lowercased form contains no alphanumeric and no Hangul
character has the empty fuzzy key: the regex turns every character of the
lowered title into whitespace, which collapse and strip erase. -/
theorem fuzzy_key_empty_of_lower_noAlnumHangul (t : String)
    (h : noAlnumHangul (lowerStr t) = true) :
    fuzzy_key t = "" := by
  have hall : ∀ c ∈ (lowerStr t).data.map (fun c => if keepChar c then c else ' '),
      pyWS c = true := by
    intro c hc
    rcases List.mem_map.mp hc with ⟨c1, hc1, rfl⟩
    have hna := List.all_eq_true.mp h c1 hc1
    simp only [Bool.not_eq_true', Bool.or_eq_false_iff, Bool.and_eq_false_iff,
      decide_eq_false_iff_not, Nat.not_le] at hna
    obtain ⟨⟨⟨hdig, hup⟩, hlow⟩, hhan⟩ := hna
    by_cases hk : keepChar c1 = true
    · rw [if_pos hk]
      unfold keepChar at hk
      simp only [Bool.or_eq_true, Bool.and_eq_true, decide_eq_true_eq] at hk
      rcases hk with ((((h1 | h1) | h1) | h1) | h1)
      · rcases hdig with h2 | h2 <;> omega
      · rcases hup with h2 | h2 <;> omega
      · rcases hlow with h2 | h2 <;> omega
      · rcases hhan with h2 | h2 <;> omega
      · exact h1
    · rw [if_neg hk]; decide
  show (⟨(pyStrip (collapse _)).take 80⟩ : String) = ⟨[]⟩
  rw [pyStrip_collapse_allWS _ hall]
  rfl

/-! Substring and scoring monotonicity lemmas. -/

theorem startsSub_append (n h h2 : List Char) (hs : startsSub n h = true) :
    startsSub n (h ++ h2) = true := by
  induction n generalizing h with
  | nil => rfl
  | cons a as ih =>
    cases h with
    | nil => exact absurd hs (by simp [startsSub])
    | cons b bs =>
      simp only [startsSub, Bool.and_eq_true] at hs
      simp only [List.cons_append, startsSub, Bool.and_eq_true]
      exact ⟨hs.1, ih bs hs.2⟩

theorem hasSub_nil_needle (l : List Char) : hasSub [] l = true := by
  cases l with
  | nil => rfl
  | cons c rest => simp [hasSub, startsSub]

theorem hasSub_append (n h h2 : List Char) (hs : hasSub n h = true) :
    hasSub n (h ++ h2) = true := by
  induction h with
  | nil =>
    simp only [hasSub, List.isEmpty_iff] at hs
    subst hs
    exact hasSub_nil_needle h2
  | cons c t ih =>
    simp only [hasSub, Bool.or_eq_true] at hs
    simp only [List.cons_append, hasSub, Bool.or_eq_true]
    rcases hs with hs | hs
    · exact Or.inl (startsSub_append n (c :: t) h2 hs)
    · exact Or.inr (ih hs)

theorem isSub_append (n a b : String) (h : isSub n a = true) : isSub n (a ++ b) = true := by
  simp only [isSub, data_append]
  exact hasSub_append n.data a.data b.data h

theorem lowerStr_append (a b : String) : lowerStr (a ++ b) = lowerStr a ++ lowerStr b := by
  cases a; cases b
  simp only [lowerStr, data_append, List.flatMap_append]
  rfl

/-- Appending to the summary appends the lowered extension to the text. -/
theorem textOf_append (t s ext : String) :
    textOf t (s ++ ext) = textOf t s ++ lowerStr ext := by
  unfold textOf
  rw [← String.append_assoc, lowerStr_append]

/-- The scoring fold is monotone in the accumulator and in the set of
matching keywords. -/
theorem score_foldl_mono (L : List (String × Nat)) (A B : String) :
    ∀ acc1 acc2 : Nat, acc1 ≤ acc2 →
      (∀ kw ∈ L, isSub (lowerStr kw.1) A = true → isSub (lowerStr kw.1) B = true) →
      L.foldl (fun acc kw => if isSub (lowerStr kw.1) A then acc + kw.2 else acc) acc1 ≤
        L.foldl (fun acc kw => if isSub (lowerStr kw.1) B then acc + kw.2 else acc) acc2 := by
  induction L with
  | nil => intro acc1 acc2 h _; exact h
  | cons kw L ih =>
    intro acc1 acc2 h himp
    simp only [List.foldl_cons]
    refine ih _ _ ?_ (fun k hk => himp k (List.mem_cons_of_mem _ hk))
    by_cases hA : isSub (lowerStr kw.1) A = true
    · rw [if_pos hA, if_pos (himp kw (List.mem_cons_self _ _) hA)]
      omega
    · rw [if_neg hA]
      by_cases hB : isSub (lowerStr kw.1) B = true
      · rw [if_pos hB]; omega
      · rw [if_neg hB]; exact h

/-- The scoring fold depends only on which keywords match. -/
theorem score_foldl_congr (L : List (String × Nat)) (A B : String) :
    ∀ acc : Nat,
      (∀ kw ∈ L, isSub (lowerStr kw.1) A = isSub (lowerStr kw.1) B) →
      L.foldl (fun acc kw => if isSub (lowerStr kw.1) A then acc + kw.2 else acc) acc =
        L.foldl (fun acc kw => if isSub (lowerStr kw.1) B then acc + kw.2 else acc) acc := by
  induction L with
  | nil => intro acc _; rfl
  | cons kw L ih =>
    intro acc himp
    simp only [List.foldl_cons]
    rw [himp kw (List.mem_cons_self _ _)]
    exact ih _ (fun k hk => himp k (List.mem_cons_of_mem _ hk))

/-! Machinery for dedup idempotence. -/

theorem updateI_idem (it : Item) : updateI (updateI it) = updateI it := by
  unfold updateI
  rw [show sidOf { it with id := some (sidOf it), score := some (score_text it.title it.summary), themes := some (classify_themes it.title it.summary) } = sidOf it from sidOf_updateI it]

/-- Re-running the dedup gate on a list whose items carry fresh pairwise
distinct keys and are fixed points of the enrichment update is a no-op. -/
theorem dedupePass_noop :
    ∀ (l : List Item) (sI sF : List String),
      (∀ x ∈ l, sidOf x ∉ sI) →
      (∀ x ∈ l, fuzzy_key x.title ∉ sF) →
      l.Pairwise (fun a b => sidOf a ≠ sidOf b ∧ fuzzy_key a.title ≠ fuzzy_key b.title) →
      (∀ x ∈ l, updateI x = x) →
      dedupePass sI sF l = l := by
  intro l
  induction l with
  | nil => intro sI sF _ _ _ _; rfl
  | cons it rest ih =>
    intro sI sF hsid hfk hpw hup
    rcases List.pairwise_cons.mp hpw with ⟨hhead, htail⟩
    simp only [dedupePass]
    rw [if_neg (hsid it (List.mem_cons_self _ _)), if_neg (hfk it (List.mem_cons_self _ _)),
      hup it (List.mem_cons_self _ _)]
    refine congrArg (fun x => it :: x) (ih _ _ ?_ ?_ htail ?_)
    · intro x hx
      intro hmem
      rcases List.mem_cons.mp hmem with he | he
      · exact (hhead x hx).1.symm he
      · exact hsid x (List.mem_cons_of_mem _ hx) he
    · intro x hx
      intro hmem
      rcases List.mem_cons.mp hmem with he | he
      · exact (hhead x hx).2.symm he
      · exact hfk x (List.mem_cons_of_mem _ hx) he
    · exact fun x hx => hup x (List.mem_cons_of_mem _ hx)

/-- Every item produced by the dedup gate is an enrichment update, hence a
fixed point of the update. -/
theorem dedupePass_update_fixed :
    ∀ (l : List Item) (sI sF : List String) (x : Item),
      x ∈ dedupePass sI sF l → updateI x = x := by
  intro l
  induction l with
  | nil => intro sI sF x hx; exact absurd hx (by simp [dedupePass])
  | cons it rest ih =>
    intro sI sF x hx
    simp only [dedupePass] at hx
    by_cases h1 : sidOf it ∈ sI
    · rw [if_pos h1] at hx; exact ih _ _ x hx
    · rw [if_neg h1] at hx
      by_cases h2 : fuzzy_key it.title ∈ sF
      · rw [if_pos h2] at hx; exact ih _ _ x hx
      · rw [if_neg h2] at hx
        rcases List.mem_cons.mp hx with rfl | hx2
        · exact updateI_idem it
        · exact ih _ _ x hx2

theorem dedupe_score_update_fixed (items : List Item) (n : Nat) (x : Item)
    (hx : x ∈ dedupe_score items n) : updateI x = x := by
  have h1 : x ∈ sortD keyST leNatStr (dedupePass [] [] items) :=
    List.mem_of_mem_take hx
  have h2 : x ∈ dedupePass [] [] items :=
    (sortD_perm keyST leNatStr _).mem_iff.mp h1
  exact dedupePass_update_fixed items [] [] x h2

/-- The dedupe_score output is sorted descending by (score, title). -/
theorem dedupe_score_sorted (items : List Item) (n : Nat) :
    (dedupe_score items n).Pairwise
      (fun x y => leNatStr (keyST y) (keyST x) = true) :=
  (sortD_sorted keyST leNatStr leNatStr_total leNatStr_trans
    (dedupePass [] [] items)).sublist (List.take_sublist n _)

/-! Helpers connecting the Bool-level any tests with the spec-level
existential statements, and a filter cardinality bound. -/

theorem anyTerm_exists (terms : List String) (text : String) :
    (∃ x ∈ terms, isSub x text = true) ↔ anyTerm terms text = true := by
  simp [anyTerm, List.any_eq_true]

theorem pairwise_filter_le_one {α : Type} (R : α → α → Prop) (p : α → Bool) (l : List α)
    (hpw : l.Pairwise R)
    (hcon : ∀ a b, p a = true → p b = true → R a b → False) :
    (l.filter p).length ≤ 1 := by
  have h2 : (l.filter p).Pairwise R := hpw.sublist (List.filter_sublist l)
  cases hf : l.filter p with
  | nil => simp
  | cons a rest =>
    cases rest with
    | nil => simp
    | cons b rest2 =>
      rw [hf] at h2
      rcases List.pairwise_cons.mp h2 with ⟨hab, _⟩
      have hpa : p a = true := List.of_mem_filter (l := l) (p := p)
        (by rw [hf]; exact List.mem_cons_self _ _)
      have hpb : p b = true := List.of_mem_filter (l := l) (p := p)
        (by rw [hf]; exact List.mem_cons_of_mem _ (List.mem_cons_self _ _))
      exact (hcon a b hpa hpb (hab b (List.mem_cons_self _ _))).elim

/-- C10: the normalizer is idempotent: norm of norm of s equals norm of s
for every string, None being treated as the empty string, so identity keys
built from normalized text are stable under re-normalization. -/
theorem claim_c10 :
    (∀ s : String, norm (norm s) = norm s) ∧
    (∀ o : Option String, norm (normOpt o) = normOpt o) :=
  ⟨norm_idem, fun o => norm_idem (o.getD "")⟩

/-- Counterexample for C9: the Kelvin-sign title contains no ASCII
alphanumeric and no Hangul character, yet its fuzzy key is "k" rather
than the empty string, because Python str.lower maps U+212A to the ASCII
letter k before the regex strip; pairing it with a punctuation-only
title, both items survive the dedupe_score run, so two such titles need
not collapse to one. -/
theorem claim_c9_cex :
    noAlnumHangul "\u212A" = true ∧
    fuzzy_key "\u212A" = "k" ∧
    ((dedupe_score [c9kelvin, c9itemB] 60).filter
      (fun it => noAlnumHangul it.title)).length = 2 := by
  refine ⟨by decide, by decide, by decide⟩

/-- C9 as amended: when the lowercased title — not just the title —
contains no ASCII alphanumeric and no Hangul character, the fuzzy key is
the empty string, and at most one item whose title and lowercased title
are both of that kind survives a dedupe_score run: the first one seen
blocks every later one regardless of its title, link or content. -/
theorem claim_c9_amended :
    (∀ t : String, noAlnumHangul (lowerStr t) = true → fuzzy_key t = "") ∧
    (∀ (items : List Item) (n : Nat),
      ((dedupe_score items n).filter
        (fun it => noAlnumHangul it.title && noAlnumHangul (lowerStr it.title))).length ≤ 1) := by
  constructor
  · exact fuzzy_key_empty_of_lower_noAlnumHangul
  · intro items n
    refine pairwise_filter_le_one _ _ _
      ((dedupe_score_pairwise_keys items n).imp (fun h => h.2)) ?_
    intro a b ha hb hne
    simp only [Bool.and_eq_true] at ha hb
    exact hne (by rw [fuzzy_key_empty_of_lower_noAlnumHangul _ ha.2,
      fuzzy_key_empty_of_lower_noAlnumHangul _ hb.2])

/-- Witness for C9 as amended at a concrete punctuation-only title and a
concrete two-item stream of punctuation-only titles. -/
theorem claim_c9_witness :
    fuzzy_key "!?!" = "" ∧
    ((dedupe_score [c9itemA, c9itemB] 60).filter
      (fun it => noAlnumHangul it.title && noAlnumHangul (lowerStr it.title))).length ≤ 1 :=
  ⟨claim_c9_amended.1 "!?!" (by decide), claim_c9_amended.2 [c9itemA, c9itemB] 60⟩

/-- C8: the strength score computed by analyze_signal is bounded by 12
(capped keyword contribution 6, strong bonus 4, theme bonus 2), and the
star display is one of the three fixed strings. -/
theorem claim_c8 :
    ∀ (title summary : String) (themes : List String) (score : Nat),
      strengthScore (textOf title summary) themes score ≤ 12 ∧
      (analyze_signal title summary themes score).stars ∈
        (["⭐", "⭐⭐", "⭐⭐⭐"] : List String) := by
  intro t s th sc
  constructor
  · unfold strengthScore
    have h1 : min 6 sc ≤ 6 := Nat.min_le_left 6 sc
    split_ifs <;> (dsimp only; omega)
  · have h : (analyze_signal t s th sc).stars =
        (if strengthScore (textOf t s) th sc ≥ 10 then "⭐⭐⭐"
         else if strengthScore (textOf t s) th sc ≥ 6 then "⭐⭐" else "⭐") := rfl
    rw [h]
    split_ifs <;> simp

/-- C4: the strength tier of analyze_signal is High exactly on strength
scores of at least 10, Medium exactly between 6 and 9, and Low exactly
below 6 (so 10 is High, 9 and 6 are Medium, 5 is Low). -/
theorem claim_c4 :
    ∀ (title summary : String) (themes : List String) (score : Nat),
      ((analyze_signal title summary themes score).strength = "상" ↔
        10 ≤ strengthScore (textOf title summary) themes score) ∧
      ((analyze_signal title summary themes score).strength = "중" ↔
        (6 ≤ strengthScore (textOf title summary) themes score ∧
         strengthScore (textOf title summary) themes score ≤ 9)) ∧
      ((analyze_signal title summary themes score).strength = "하" ↔
        strengthScore (textOf title summary) themes score ≤ 5) := by
  intro t s th sc
  have hst : (analyze_signal t s th sc).strength =
      (if strengthScore (textOf t s) th sc ≥ 10 then "상"
       else if strengthScore (textOf t s) th sc ≥ 6 then "중" else "하") := rfl
  rw [hst]
  split_ifs with h1 h2
  · exact ⟨⟨fun _ => h1, fun _ => rfl⟩,
      ⟨fun h => absurd h (by decide), fun h => absurd h.2 (by omega)⟩,
      ⟨fun h => absurd h (by decide), fun h => absurd h (by omega)⟩⟩
  · exact ⟨⟨fun h => absurd h (by decide), fun h => absurd h (by omega)⟩,
      ⟨fun _ => ⟨h2, by omega⟩, fun _ => rfl⟩,
      ⟨fun h => absurd h (by decide), fun h => absurd h (by omega)⟩⟩
  · exact ⟨⟨fun h => absurd h (by decide), fun h => absurd h (by omega)⟩,
      ⟨fun h => absurd h (by decide), fun h => absurd h.1 (by omega)⟩,
      ⟨fun _ => by omega, fun _ => rfl⟩⟩

/-- C3: the strength score is min(6, score), plus 4 when a strong term
occurs in the lowercased text, else plus 2 when a medium term does (the
strong branch suppresses the medium bonus), plus 2 when the theme list
meets the high-impact subset. -/
theorem claim_c3 :
    ∀ (title summary : String) (themes : List String) (score : Nat),
      strengthScore (textOf title summary) themes score =
        min 6 score
        + (if ∃ t ∈ STRONG_TERMS, isSub t (textOf title summary) = true then 4
           else if ∃ t ∈ MEDIUM_TERMS, isSub t (textOf title summary) = true then 2 else 0)
        + (if ∃ t ∈ themes, t ∈ HIGH_IMPACT_THEMES then 2 else 0) := by
  intro t s th sc
  have hstrong := anyTerm_exists STRONG_TERMS (textOf t s)
  have hmed := anyTerm_exists MEDIUM_TERMS (textOf t s)
  have htheme :
      ((["금리/연준/물가", "환율/달러/국채", "지정학/원자재"] : List String).any
        (fun x => th.contains x) = true) ↔ ∃ x ∈ th, x ∈ HIGH_IMPACT_THEMES := by
    rw [List.any_eq_true]
    constructor
    · rintro ⟨x, hx1, hx2⟩
      exact ⟨x, List.elem_iff.mp hx2, hx1⟩
    · rintro ⟨x, hx1, hx2⟩
      exact ⟨x, hx2, List.elem_iff.mpr hx1⟩
  have step1 : strengthScore (textOf t s) th sc =
      min 6 sc
      + (if anyTerm STRONG_TERMS (textOf t s) = true then 4
         else if anyTerm MEDIUM_TERMS (textOf t s) = true then 2 else 0)
      + (if (["금리/연준/물가", "환율/달러/국채", "지정학/원자재"] : List String).any
            (fun x => th.contains x) = true then 2 else 0) := by
    unfold strengthScore
    split_ifs <;> (dsimp only; try omega)
  rw [step1]
  simp only [hstrong, hmed, htheme]

/-- C5: the risk mode computed by analyze_signal agrees with the spec's
decision table: RiskOff when only off-terms match, RiskOn when only
on-terms match, and otherwise the macro-risk fallback vocabulary decides
between RiskOff and Mixed. -/
theorem claim_c5 :
    ∀ (title summary : String) (themes : List String) (score : Nat),
      (analyze_signal title summary themes score).risk_mode = riskModeSpec title summary := by
  intro t s th sc
  have h : (analyze_signal t s th sc).risk_mode =
      (if anyTerm RISK_OFF_TERMS (textOf t s) && !anyTerm RISK_ON_TERMS (textOf t s)
       then "Risk-off"
       else if anyTerm RISK_ON_TERMS (textOf t s) && !anyTerm RISK_OFF_TERMS (textOf t s)
       then "Risk-on"
       else if anyTerm ["hawkish", "yield", "war", "attack", "sanction", "oil", "inflation"]
              (textOf t s)
       then "Risk-off" else "Mixed") := rfl
  rw [h]
  have hspec : riskModeSpec t s =
      (if anyTerm RISK_OFF_TERMS (textOf t s) = true ∧ ¬ anyTerm RISK_ON_TERMS (textOf t s) = true
       then "Risk-off"
       else if anyTerm RISK_ON_TERMS (textOf t s) = true ∧
           ¬ anyTerm RISK_OFF_TERMS (textOf t s) = true
       then "Risk-on"
       else if anyTerm ["hawkish", "yield", "war", "attack", "sanction", "oil", "inflation"]
           (textOf t s) = true
       then "Risk-off" else "Mixed") := by
    unfold riskModeSpec
    simp only [anyTerm_exists]
  rw [hspec]
  cases hOff : anyTerm RISK_OFF_TERMS (textOf t s) <;>
    cases hOn : anyTerm RISK_ON_TERMS (textOf t s) <;>
      cases hMac : anyTerm ["hawkish", "yield", "war", "attack", "sanction", "oil", "inflation"]
        (textOf t s) <;>
        simp [hOff, hOn, hMac]

/-- C6: dedupe_score is deterministic and idempotent: running it twice on
the same stream gives the same output, and running it on its own output
(with the same cap) returns that output unchanged. -/
theorem claim_c6 :
    ∀ (items : List Item) (n : Nat),
      dedupe_score items n = dedupe_score items n ∧
      dedupe_score (dedupe_score items n) n = dedupe_score items n := by
  intro items n
  refine ⟨rfl, ?_⟩
  have hpw := dedupe_score_pairwise_keys items n
  have hfix := dedupe_score_update_fixed items n
  have hsort := dedupe_score_sorted items n
  show (sortD keyST leNatStr (dedupePass [] [] (dedupe_score items n))).take n =
    dedupe_score items n
  rw [dedupePass_noop (dedupe_score items n) [] [] (by simp) (by simp) hpw hfix]
  rw [sortD_of_sorted keyST leNatStr _ hsort]
  show ((sortD keyST leNatStr (dedupePass [] [] items)).take n).take n =
    (sortD keyST leNatStr (dedupePass [] [] items)).take n
  rw [List.take_take, Nat.min_self]

/-- Counterexample for C7: the text "cpi core" scores 3 (only the keyword
cpi matches), but appending another occurrence of the already-matched
keyword cpi yields "cpi core cpi", in which the two-word keyword
"core cpi" newly matches across the boundary, raising the score to 6 —
so a duplicate occurrence of a matched keyword can change the score. -/
theorem claim_c7_cex :
    score_text "cpi core" "" = 3 ∧
    score_text "cpi core" ("" ++ "cpi") = 6 ∧
    isSub (lowerStr "cpi") (textOf "cpi core" "") = true := by
  refine ⟨by decide, by decide, by decide⟩

/-- C7 as amended: the score depends only on which keywords match (each
contributes at most once); extending the text never decreases the score;
and extending it with a duplicate of an already-matched keyword leaves the
score unchanged provided the extension creates no new keyword match (a
multi-word keyword may newly match across the boundary, as the
counterexample shows). -/
theorem claim_c7_amended :
    (∀ title summary ext : String,
      score_text title summary ≤ score_text title (summary ++ ext)) ∧
    (∀ title summary ext : String,
      (∀ kw ∈ KEYWORDS, isSub (lowerStr kw.1) (textOf title (summary ++ ext)) = true →
        isSub (lowerStr kw.1) (textOf title summary) = true) →
      score_text title (summary ++ ext) = score_text title summary) ∧
    (∀ t1 s1 t2 s2 : String,
      (∀ kw ∈ KEYWORDS, isSub (lowerStr kw.1) (textOf t1 s1) = isSub (lowerStr kw.1) (textOf t2 s2)) →
      score_text t1 s1 = score_text t2 s2) := by
  refine ⟨?_, ?_, ?_⟩
  · intro t s ext
    unfold score_text
    refine score_foldl_mono KEYWORDS (textOf t s) (textOf t (s ++ ext)) 0 0 (Nat.le_refl 0) ?_
    intro kw _ hsub
    rw [textOf_append]
    exact isSub_append _ _ _ hsub
  · intro t s ext himp
    unfold score_text
    refine score_foldl_congr KEYWORDS (textOf t (s ++ ext)) (textOf t s) 0 ?_
    intro kw hkw
    by_cases h : isSub (lowerStr kw.1) (textOf t (s ++ ext)) = true
    · rw [h, himp kw hkw h]
    · have h2 : isSub (lowerStr kw.1) (textOf t (s ++ ext)) = false := by
        simpa using h
      have h3 : isSub (lowerStr kw.1) (textOf t s) = false := by
        by_cases h4 : isSub (lowerStr kw.1) (textOf t s) = true
        · exact absurd (by rw [textOf_append]; exact isSub_append _ _ _ h4) h
        · simpa using h4
      rw [h2, h3]
  · intro t1 s1 t2 s2 himp
    unfold score_text
    exact score_foldl_congr KEYWORDS _ _ 0 himp

/-- Witness for C7 as amended, at concrete texts: extending "fed" with a
fresh letter never lowers the score, extending it with text that creates
no new keyword match leaves the score unchanged, and a title differing
only in case matches the same keywords and scores the same. -/
theorem claim_c7_witness :
    score_text "fed" "" ≤ score_text "fed" ("" ++ "x") ∧
    score_text "fed" ("" ++ " d") = score_text "fed" "" ∧
    score_text "fed" "" = score_text "Fed" "" :=
  ⟨claim_c7_amended.1 "fed" "" "x",
   claim_c7_amended.2.1 "fed" "" " d" (by decide),
   claim_c7_amended.2.2 "fed" "" "Fed" "" (by decide)⟩

/-- Counterexample for C1: with overall_cap 1, the pipeline keeps the
Medium-tier item of keyword score 9 (truncation happens inside
dedupe_score, after the (score, title) sort and before any signal is
computed), while the claimed order would keep the High-tier item of score
6; the two ranked outputs differ. -/
theorem claim_c1_cex :
    ((pipeline [c1itemA, c1itemB] 1).map (fun e => e.base.title) = ["금리 연준 fed"]) ∧
    ((specRankedC1 [c1itemA, c1itemB] 1).map (fun e => e.base.title) = ["금리 연준 surge"]) ∧
    pipeline [c1itemA, c1itemB] 1 ≠ specRankedC1 [c1itemA, c1itemB] 1 := by
  refine ⟨by decide, by decide, by decide⟩

/-- C1 as amended: the ranked output equals the surviving deduplicated
items first sorted descending by (keyword score, title) and truncated to
overall_cap, then enriched and stably re-sorted descending by
(strength tier rank, score); it is sorted by that final key and never
longer than overall_cap. -/
theorem claim_c1_amended :
    ∀ (items : List Item) (cap : Nat),
      pipeline items cap = amendedRankedC1 items cap ∧
      (pipeline items cap).Pairwise (fun x y => leNatNat (keyTS y) (keyTS x) = true) ∧
      (pipeline items cap).length ≤ cap := by
  intro items cap
  refine ⟨rfl, ?_, ?_⟩
  · exact sortD_sorted keyTS leNatNat leNatNat_total leNatNat_trans _
  · show (sortD keyTS leNatNat (enrich (dedupe_score items cap))).length ≤ cap
    rw [(sortD_perm keyTS leNatNat _).length_eq]
    show (List.map _ (dedupe_score items cap)).length ≤ cap
    rw [List.length_map]
    exact List.length_take_le cap _

/-- Counterexample for C2: the stream [tieItemA, tieItemB] (titles
"fed a" then "fed b") produces two items of identical tier and identical
keyword score, yet the ranked output lists "fed b" first: the
deduplicator's intermediate (score, title) sort reverses the arrival
order of this tie before the stable tier sort runs. -/
theorem claim_c2_cex :
    ((pipeline [tieItemA, tieItemB] 60).map (fun e => e.base.title) = ["fed b", "fed a"]) ∧
    ((pipeline [tieItemA, tieItemB] 60).map (fun e => e.signal.strength) = ["하", "하"]) ∧
    ((pipeline [tieItemA, tieItemB] 60).map (fun e => e.base.score.getD 0) = [3, 3]) ∧
    tieItemA.title = "fed a" ∧ tieItemB.title = "fed b" := by
  refine ⟨by decide, by decide, by decide, rfl, rfl⟩

/-- C2 as amended: whenever two items of the ranked output share a
strength tier and a keyword score, their relative order is strictly
descending title order (the order imposed by the deduplicator's
(score, title) sort), not their arrival order. -/
theorem claim_c2_amended :
    ∀ (items : List Item) (cap i j : Nat) (_hij : i < j)
      (hi : i < (pipeline items cap).length) (hj : j < (pipeline items cap).length),
      ((pipeline items cap).get ⟨i, hi⟩).signal.strength =
        ((pipeline items cap).get ⟨j, hj⟩).signal.strength →
      ((pipeline items cap).get ⟨i, hi⟩).base.score.getD 0 =
        ((pipeline items cap).get ⟨j, hj⟩).base.score.getD 0 →
      (strLe ((pipeline items cap).get ⟨j, hj⟩).base.title
          ((pipeline items cap).get ⟨i, hi⟩).base.title = true ∧
        ((pipeline items cap).get ⟨i, hi⟩).base.title ≠
          ((pipeline items cap).get ⟨j, hj⟩).base.title) := by
  intro items cap i j hij hi hj hstr hsc
  have h0 : (dedupePass [] [] items).Pairwise (fun a b => a.title ≠ b.title) :=
    (dedupePass_pairwise items [] []).1.imp (fun h => title_ne_of_fuzzy_ne h.2)
  have hs1 : (sortD keyST leNatStr (dedupePass [] [] items)).Pairwise
      (fun x y => leNatStr (keyST y) (keyST x) = true) :=
    sortD_sorted keyST leNatStr leNatStr_total leNatStr_trans _
  have hne1 : (sortD keyST leNatStr (dedupePass [] [] items)).Pairwise
      (fun a b => a.title ≠ b.title) :=
    ((sortD_perm keyST leNatStr _).pairwise_iff (fun h => fun e => h e.symm)).mpr h0
  have hQ1 : (sortD keyST leNatStr (dedupePass [] [] items)).Pairwise
      (fun a b => a.score.getD 0 = b.score.getD 0 →
        (strLe b.title a.title = true ∧ a.title ≠ b.title)) :=
    (hs1.and hne1).imp (fun h => fun hsc2 => ⟨leNatStr_same_fst h.1 hsc2.symm, h.2⟩)
  have hQ2 := hQ1.sublist (List.take_sublist cap _)
  have hQE : (enrich ((sortD keyST leNatStr (dedupePass [] [] items)).take cap)).Pairwise
      (fun e1 e2 => e1.base.score.getD 0 = e2.base.score.getD 0 →
        (strLe e2.base.title e1.base.title = true ∧ e1.base.title ≠ e2.base.title)) := by
    refine List.pairwise_map.mpr ?_
    exact hQ2.imp (fun h => h)
  have hL := sortD_stable keyTS leNatNat _ leNatNat_total leNatNat_trans _ hQE
  have hP : (pipeline items cap).Pairwise (fun x y =>
      x.signal.strength = y.signal.strength →
      x.base.score.getD 0 = y.base.score.getD 0 →
      (strLe y.base.title x.base.title = true ∧ x.base.title ≠ y.base.title)) := by
    refine hL.imp ?_
    intro x y h h1 h2
    refine h ?_ h2
    show (strength_rank x.signal.strength, x.base.score.getD 0) =
      (strength_rank y.signal.strength, y.base.score.getD 0)
    rw [h1, h2]
  exact List.pairwise_iff_get.mp hP ⟨i, hi⟩ ⟨j, hj⟩ hij hstr hsc

theorem tieLen0 : 0 < (pipeline [tieItemA, tieItemB] 60).length := by decide

theorem tieLen1 : 1 < (pipeline [tieItemA, tieItemB] 60).length := by decide

/-- Witness for C2 as amended, at the concrete tied stream: the two
equal-tier equal-score items of the ranked output stand in strictly
descending title order. -/
theorem claim_c2_amended_witness :
    strLe ((pipeline [tieItemA, tieItemB] 60).get ⟨1, tieLen1⟩).base.title
        ((pipeline [tieItemA, tieItemB] 60).get ⟨0, tieLen0⟩).base.title = true ∧
      ((pipeline [tieItemA, tieItemB] 60).get ⟨0, tieLen0⟩).base.title ≠
        ((pipeline [tieItemA, tieItemB] 60).get ⟨1, tieLen1⟩).base.title :=
  claim_c2_amended [tieItemA, tieItemB] 60 0 1 (by decide) tieLen0 tieLen1
    (by decide) (by decide)

end Digest
